import Mathlib

/-!
Verification development for the auto-pr repository watcher.

This file gives a shallow embedding of the core of the program:

* the GitHub data types and the review-fetch helpers
  (internal/github/util.go, internal/github/reviews.go,
  internal/github/issues.go),
* the durable state store (internal/state/state.go, issue.go, pr.go),
* the repo-level scheduler scan (internal/watch/repo.go,
  scanAndSpawnWorkers),
* the per-issue worker write trace (internal/watch/worker.go),
* the single-PR watch loop (internal/watch/singlepr.go),

and proves the stated properties of the specification against it.
External effects (the GitHub API, the claude invocation, the
filesystem) are passed in as explicit parameters, so every definition
is executable on concrete inputs.
-/

namespace AutoPR

/-! ## Lexicographic string comparison

Go compares timestamp strings with the built-in byte-wise order.  The
timestamps exchanged here are ASCII ISO-8601 strings, on which the
byte order and the character order coincide, so the comparison is
modelled character-wise. -/

/-- Lexicographic strict order on character lists (Go string compare). -/
def charsLt : List Char → List Char → Bool
  | [], [] => false
  | [], _ :: _ => true
  | _ :: _, [] => false
  | a :: as, b :: bs =>
    if a < b then true else if b < a then false else charsLt as bs

/-- Go's s1 < s2 on strings. -/
def strLt (a b : String) : Bool :=
  charsLt a.data b.data

/-- Go's s1 <= s2 on strings. -/
def strLe (a b : String) : Bool :=
  !(strLt b a)

/-- Go's strings.Split on a one-character separator, character-list
level: always returns at least one piece. -/
def splitCharsAux (sep : Char) : List Char → List (List Char)
  | [] => [[]]
  | c :: cs =>
    let r := splitCharsAux sep cs
    if c = sep then [] :: r
    else
      match r with
      | [] => [[c]]
      | h :: t => (c :: h) :: t

/-- Go's strings.Split on a one-character separator. -/
def splitOnChar (sep : Char) (s : String) : List String :=
  (splitCharsAux sep s.data).map (fun l => ⟨l⟩)

/-- Go's strings.TrimSpace (ASCII whitespace). -/
def trimString (s : String) : String :=
  ⟨((s.data.dropWhile Char.isWhitespace).reverse.dropWhile Char.isWhitespace).reverse⟩

/-- Go's strings.Join with a separator. -/
def joinWith (sep : String) : List String → String
  | [] => ""
  | [x] => x
  | x :: y :: xs => x ++ sep ++ joinWith sep (y :: xs)

/-! ## GitHub data model (internal/github/util.go) -/

/-- A GitHub user; only the login is carried (struct User). -/
structure GUser where
  login : String
deriving DecidableEq, Repr

/-- An inline (line-level) PR review comment (struct ReviewComment). -/
structure ReviewComment where
  id : Nat
  path : String
  line : Option Nat
  originalLine : Option Nat
  body : String
  user : GUser
  createdAt : String
  updatedAt : String
  pullRequestReviewID : Nat
deriving DecidableEq, Repr

/-- A top-level PR review (struct Review). -/
structure Review where
  id : Nat
  state : String
  body : String
  user : GUser
  submittedAt : String
deriving DecidableEq, Repr

/-- A GitHub issue (struct Issue); pullRequest is the optional
pull_request field whose presence marks the item as actually a PR. -/
structure GIssue where
  number : Nat
  title : String
  body : String
  state : String
  pullRequest : Option String
deriving DecidableEq, Repr

/-- ReviewComment.LatestTimestamp: UpdatedAt if non-empty, else CreatedAt. -/
def ReviewComment.latestTimestamp (c : ReviewComment) : String :=
  if c.updatedAt ≠ "" then c.updatedAt else c.createdAt

/-! ## Review fetch helpers (internal/github/reviews.go)

The two underlying paginated fetches are passed in as Except values;
the real code runs them against the gh CLI. -/

/-- The maxTS accumulation loop of GetLatestCommentTimestamp: fold over
comments first, then reviews, keeping the lexicographically largest
timestamp seen, starting from the empty string. -/
def maxCommentTS (comments : List ReviewComment) (reviews : List Review) : String :=
  let m1 := comments.foldl
    (fun m c => if strLt m c.latestTimestamp then c.latestTimestamp else m) ""
  reviews.foldl (fun m r => if strLt m r.submittedAt then r.submittedAt else m) m1

/-- GetLatestCommentTimestamp: fetch failures are replaced by nil slices
and the function always returns with a nil error. -/
def getLatestCommentTimestamp (cres : Except Unit (List ReviewComment))
    (rres : Except Unit (List Review)) : Except Unit String :=
  let comments := match cres with
    | .ok cs => cs
    | .error _ => []
  let reviews := match rres with
    | .ok rs => rs
    | .error _ => []
  .ok (maxCommentTS comments reviews)

/-- struct NewComments: new inline comments and top-level reviews. -/
structure NewComments where
  inlineComments : List ReviewComment
  topLevelReviews : List Review
deriving DecidableEq, Repr

/-- FetchNewComments: fetch failures are replaced by nil slices; keeps
comments whose latest timestamp is after since, and reviews submitted
after since with a non-empty body; returns none when both are empty. -/
def fetchNewComments (cres : Except Unit (List ReviewComment))
    (rres : Except Unit (List Review)) (since : String) :
    Except Unit (Option NewComments) :=
  let comments := match cres with
    | .ok cs => cs
    | .error _ => []
  let reviews := match rres with
    | .ok rs => rs
    | .error _ => []
  let newComments := comments.filter (fun c => strLt since c.latestTimestamp)
  let newReviews := reviews.filter
    (fun r => strLt since r.submittedAt && r.body ≠ "")
  if newComments.isEmpty && newReviews.isEmpty then .ok none
  else .ok (some ⟨newComments, newReviews⟩)

/-- The baseline establishment at the top of watchReviews
(internal/watch/worker.go): the fetch error is discarded and an empty
result falls back to the epoch sentinel. -/
def establishBaseline (r : Except Unit String) : String :=
  let ts := match r with
    | .ok t => t
    | .error _ => ""
  if ts = "" then "1970-01-01T00:00:00Z" else ts

/-! ## Durable state records (internal/state/issue.go, pr.go) -/

/-- IssueStatus enum. -/
inductive IssueStatus
  | preexisting
  | inProgress
  | watching
  | done
  | failed
deriving DecidableEq, Repr

/-- struct IssueState: the persisted per-issue record. -/
structure IssueState where
  status : IssueStatus
  pid : Nat
  branch : String
  prNumber : Nat
deriving DecidableEq, Repr

/-- struct PRState: the persisted per-PR record. -/
structure PRState where
  lastCommentTS : String
  pid : Nat
  branch : String
deriving DecidableEq, Repr

/-- The record written by the first-run guard in scanAndSpawnWorkers:
only Status is set. -/
def preexistingRec : IssueState :=
  ⟨.preexisting, 0, "", 0⟩

/-- The record written on admission: Status in_progress and the
deterministic branch name auto/issue-N. -/
def inProgressRec (n : Nat) : IssueState :=
  ⟨.inProgress, 0, "auto/issue-" ++ toString n, 0⟩

/-- The record written by the scheduler when a worker returns an error. -/
def failedRec (branch : String) : IssueState :=
  ⟨.failed, 0, branch, 0⟩

/-! ## Scheduler scan (internal/watch/repo.go, scanAndSpawnWorkers)

The scan is modelled as a fold over the discovered issue list.  The
scheduler state carries the durable issue store, the one-time
initialization sentinel, the in-memory active-worker set and the
semaphore occupancy; the fold also emits an ordered event log of the
record writes, worker spawns and full-pool deferrals. -/

/-- The scheduler-visible state threaded through one scan pass. -/
structure ScanState where
  store : Nat → Option IssueState
  initialized : Bool
  active : Nat → Bool
  used : Nat
  maxConcurrent : Nat

/-- Observable events of one scan pass, in program order. -/
inductive ScanEvent
  | wrote (n : Nat) (s : IssueState)
  | spawned (n : Nat)
  | deferred (n : Nat)
deriving DecidableEq, Repr

/-- Update the durable store at one issue number. -/
def storeWrite (store : Nat → Option IssueState) (n : Nat) (s : IssueState) :
    Nat → Option IssueState :=
  fun m => if m = n then some s else store m

/-- One iteration of the issue loop in scanAndSpawnWorkers:
skip recorded issues; on the very first scan write a preexisting
record; otherwise try the non-blocking semaphore acquire and, on
success, write in_progress and register and spawn the worker, else
defer the issue with no write. -/
def processIssue (acc : ScanState × List ScanEvent) (iss : GIssue) :
    ScanState × List ScanEvent :=
  let st := acc.1
  let evs := acc.2
  match st.store iss.number with
  | some _ => acc
  | none =>
    if st.initialized = false then
      ({ st with store := storeWrite st.store iss.number preexistingRec },
       evs ++ [.wrote iss.number preexistingRec])
    else if st.used < st.maxConcurrent then
      ({ st with
          store := storeWrite st.store iss.number (inProgressRec iss.number),
          active := fun m => if m = iss.number then true else st.active m,
          used := st.used + 1 },
       evs ++ [.wrote iss.number (inProgressRec iss.number), .spawned iss.number])
    else
      (st, evs ++ [.deferred iss.number])

/-- scanAndSpawnWorkers over a fetched issue list. -/
def scanAndSpawnWorkers (st : ScanState) (issues : List GIssue) :
    ScanState × List ScanEvent :=
  issues.foldl processIssue (st, [])

/-- One scheduler cycle: scan, then mark the store initialized
(Repo marks it right after the first scan; marking is idempotent). -/
def runCycle (st : ScanState) (issues : List GIssue) :
    ScanState × List ScanEvent :=
  let r := scanAndSpawnWorkers st issues
  ({ r.1 with initialized := true }, r.2)

/-- Worker-goroutine termination as seen by the scheduler: the deferred
statements release the semaphore slot and drop the cancellation handle
regardless of outcome, and an error return additionally writes a
failed record. -/
def workerFinish (st : ScanState) (n : Nat) (branch : String) (errored : Bool) :
    ScanState :=
  { st with
      store := if errored then storeWrite st.store n (failedRec branch) else st.store,
      active := fun m => if m = n then false else st.active m,
      used := st.used - 1 }

/-! ## Worker write trace (internal/watch/worker.go)

RunWorker's durable writes for one issue depend only on where the run
stops, so the possible environments are enumerated and each run is
mapped to the ordered list of status values it writes. -/

/-- The unrecoverable Phase 1 failure points of RunWorker; each one
writes a failed record and returns an error. -/
inductive Phase1Failure
  | containerStart
  | worktreeCreate
  | issueFetch
  | claudeRun
  | prDetect
deriving DecidableEq, Repr

/-- How one spawned worker run ends. -/
inductive WorkerOutcome
  | phase1Fail (f : Phase1Failure)
  | cancelledWhileWatching
  | completed
deriving DecidableEq, Repr

/-- Status values written by watchReviews: the loop body writes
nothing (warnings only); normal loop exit writes done; a cancellation
return skips the done write. -/
def watchReviewsWrites (cancelled : Bool) : List IssueStatus :=
  if cancelled then [] else [.done]

/-- Status values written by RunWorker, paired with whether it returns
an error: every Phase 1 failure writes failed; success writes watching
after PR detection, then the watchReviews writes, then done. -/
def runWorkerWrites : WorkerOutcome → List IssueStatus × Bool
  | .phase1Fail _ => ([.failed], true)
  | .cancelledWhileWatching => ([.watching] ++ watchReviewsWrites true, true)
  | .completed => ([.watching] ++ watchReviewsWrites false ++ [.done], false)

/-- The two ways an issue's record can come to exist. -/
inductive IssueLifecycle
  | markedPreexisting
  | spawnedWorker (o : WorkerOutcome)
deriving DecidableEq, Repr

/-- The full ordered sequence of status values ever written for one
issue: the first-scan path writes only preexisting; the admission path
writes in_progress, then the worker's writes, then the scheduler's
failed write when the worker returned an error. -/
def issueStatusTrace : IssueLifecycle → List IssueStatus
  | .markedPreexisting => [.preexisting]
  | .spawnedWorker o =>
    let r := runWorkerWrites o
    [.inProgress] ++ r.1 ++ (if r.2 then [.failed] else [])

/-- The transition relation the specification states: preexisting has
no successor, in_progress goes to watching or failed, watching goes to
done or failed. -/
def specAllows : IssueStatus → IssueStatus → Bool
  | .inProgress, .watching => true
  | .inProgress, .failed => true
  | .watching, .done => true
  | .watching, .failed => true
  | _, _ => false

/-- The transition relation the code actually realises: the
specification's transitions plus the idempotent terminal rewrites
done-after-done (RunWorker re-writes done after watchReviews already
wrote it) and failed-after-failed (the scheduler re-writes failed
after a worker that already recorded failure returns an error). -/
def codeAllows (a b : IssueStatus) : Bool :=
  specAllows a b || (a = .done && b = .done) || (a = .failed && b = .failed)

/-! ## Atomic record writes (internal/state/state.go, atomicWrite)

The filesystem is modelled as the target record path plus the fresh
temp file; atomicWrite is run step by step with a chosen failure
point, returning every intermediate filesystem state, the success
flag and the final state. -/

/-- Content of the temp file while atomicWrite is in flight. -/
inductive TmpData (α : Type)
  | empty
  | full (a : α)
deriving DecidableEq, Repr

/-- The observable filesystem at the record path: the target file and
the temp file used by atomicWrite. -/
structure FSFile (α : Type) where
  target : Option α
  tmp : Option (TmpData α)
deriving DecidableEq, Repr

/-- Where atomicWrite is made to fail, if anywhere. -/
inductive AtomicFail
  | atCreate
  | atWrite
  | atClose
  | atRename
  | noFail
deriving DecidableEq, Repr

/-- atomicWrite: create the temp file in the target's directory, write
the serialized document into it, close it, then rename it over the
target; every failure removes the temp file and propagates the error.
Returns the intermediate states in order, the success flag, and the
final state. -/
def atomicWrite (fs : FSFile α) (data : α) (f : AtomicFail) :
    List (FSFile α) × Bool × FSFile α :=
  match f with
  | .atCreate => ([fs], false, fs)
  | .atWrite =>
    let s1 : FSFile α := { fs with tmp := some .empty }
    let s2 : FSFile α := { fs with tmp := none }
    ([fs, s1, s2], false, s2)
  | .atClose =>
    let s1 : FSFile α := { fs with tmp := some .empty }
    let s2 : FSFile α := { fs with tmp := some (.full data) }
    let s3 : FSFile α := { fs with tmp := none }
    ([fs, s1, s2, s3], false, s3)
  | .atRename =>
    let s1 : FSFile α := { fs with tmp := some .empty }
    let s2 : FSFile α := { fs with tmp := some (.full data) }
    let s3 : FSFile α := { fs with tmp := none }
    ([fs, s1, s2, s3], false, s3)
  | .noFail =>
    let s1 : FSFile α := { fs with tmp := some .empty }
    let s2 : FSFile α := { fs with tmp := some (.full data) }
    let s3 : FSFile α := { target := some data, tmp := none }
    ([fs, s1, s2, s3], true, s3)

/-- WriteIssue marshals the record and delegates to atomicWrite on the
issue's record path (internal/state/issue.go). -/
def writeIssueFS (fs : FSFile IssueState) (s : IssueState) (f : AtomicFail) :
    List (FSFile IssueState) × Bool × FSFile IssueState :=
  atomicWrite fs s f

/-- WritePR marshals the record and delegates to atomicWrite on the
PR's record path (internal/state/pr.go). -/
def writePRFS (fs : FSFile PRState) (s : PRState) (f : AtomicFail) :
    List (FSFile PRState) × Bool × FSFile PRState :=
  atomicWrite fs s f

/-! ## Legacy state migration (internal/state/state.go, migrateOldState) -/

/-- Parse one line of the legacy flat file: trim it, skip it when
empty, split at the first underscore (strings.Index), and skip it when
either the number part or the timestamp part is empty. -/
def parseLegacyLine (raw : String) : Option (String × String) :=
  let line := trimString raw
  if line = "" then none
  else
    match splitOnChar '_' line with
    | [] => none
    | [_] => none
    | first :: rest =>
      let prNum := first
      let ts := joinWith "_" rest
      if prNum = "" || ts = "" then none else some (prNum, ts)

/-- All PR-record writes produced by migrating one legacy file body:
one write per parseable line, malformed lines skipped. -/
def migrateWrites (content : String) : List (String × String) :=
  (splitOnChar '\n' content).filterMap parseLegacyLine

/-- What is found at the state root path. -/
inductive StateRoot
  | absent
  | directory
  | flatFile (content : String)
deriving DecidableEq, Repr

/-- migrateOldState: nothing to do when the root is absent or already
a directory; for a legacy flat file, remove it (an I/O failure there
is the only error exit) and write one PR document per parseable line. -/
def migrateOldState (root : StateRoot) (removeFails : Bool) :
    Except String (List (String × String)) :=
  match root with
  | .absent => .ok []
  | .directory => .ok []
  | .flatFile content =>
    if removeFails then .error "remove old state file"
    else .ok (migrateWrites content)

/-- Init runs the migration, demotes a migration error to a warning,
and proceeds to create the directory layout either way. -/
def initMigration (root : StateRoot) (removeFails : Bool) :
    Bool × List (String × String) :=
  match migrateOldState root removeFails with
  | .ok ws => (true, ws)
  | .error _ => (true, [])

/-- The PR documents present after a sequence of migration writes;
a later write to the same number replaces the earlier one. -/
def migratedDocs (writes : List (String × String)) : String → Option PRState :=
  writes.foldl
    (fun m w => fun k => if k = w.1 then some ⟨w.2, 0, ""⟩ else m k)
    (fun _ => none)

/-- Modelled from the spec: a legacy line is well-formed when, after
trimming, it is non-empty, contains an underscore separator, and has a
non-empty number part and a non-empty timestamp part. -/
def wellFormedLegacyLine (raw : String) : Bool :=
  let l := trimString raw
  l ≠ "" && decide ((splitOnChar '_' l).length ≥ 2) &&
    ((splitOnChar '_' l).headD "") ≠ "" &&
    (joinWith "_" (splitOnChar '_' l).tail) ≠ ""

/-- Modelled from the spec: the number part of a legacy line,
everything before the first underscore of the trimmed line. -/
def legacyNumberPart (raw : String) : String :=
  (splitOnChar '_' (trimString raw)).headD ""

/-- Modelled from the spec: the timestamp part of a legacy line,
everything after the first underscore of the trimmed line. -/
def legacyTimestampPart (raw : String) : String :=
  joinWith "_" (splitOnChar '_' (trimString raw)).tail

/-- What the migration loop body emits for one legacy line, besides
continuing the loop. -/
inductive MigrateEvent
  | wrotePR (num ts : String)
  | writeWarning (num : String)
deriving DecidableEq, Repr

/-- The migration loop body for one legacy line: a malformed line is
skipped silently (the loop just continues with no output); a parseable
line writes its PR document, and only a failed write of that document
emits the in-loop warning (migration still continues). -/
def migrateLineEvents (writeFails : String → Bool) (raw : String) :
    List MigrateEvent :=
  match parseLegacyLine raw with
  | none => []
  | some (num, ts) =>
    if writeFails num then [.writeWarning num] else [.wrotePR num ts]

/-- All events emitted while migrating one legacy file body. -/
def migrateEvents (content : String) (writeFails : String → Bool) :
    List MigrateEvent :=
  ((splitOnChar '\n' content).map (migrateLineEvents writeFails)).flatten

/-- The warnings among the migration events. -/
def migrateWarningList (content : String) (writeFails : String → Bool) :
    List MigrateEvent :=
  (migrateEvents content writeFails).filter fun ev =>
    match ev with
    | .writeWarning _ => true
    | _ => false

/-! ## Single-PR watch mode (internal/watch/singlepr.go)

The per-cycle API responses are supplied as a script; each poll sees
one comment/review snapshot for FetchNewComments and one for the
GetLatestCommentTimestamp call made after the agent run. -/

/-- The external responses one poll iteration of SinglePR sees. -/
structure PollEnv where
  fetchComments : List ReviewComment
  fetchReviews : List Review
  claudeErr : Bool
  latestComments : List ReviewComment
  latestReviews : List Review
deriving Repr

/-- SinglePR initialization: resume from a stored non-empty timestamp
without writing; otherwise record the fetched baseline, falling back
to the epoch sentinel when no activity exists.  Returns the WritePR
timestamps issued and the in-memory lastTS. -/
def singlePRInit (stored : Option PRState)
    (bc : List ReviewComment) (br : List Review) : List String × String :=
  let last0 := match stored with
    | some s => s.lastCommentTS
    | none => ""
  if last0 = "" then
    let ts := maxCommentTS bc br
    if ts ≠ "" then ([ts], ts)
    else (["1970-01-01T00:00:00Z"], "1970-01-01T00:00:00Z")
  else ([], last0)

/-- One poll iteration of SinglePR: with no new data nothing is
written; with new data the agent runs (its error only logged), the
latest timestamp is re-fetched and, when non-empty, persisted. -/
def singlePRIteration (lastTS : String) (env : PollEnv) : List String × String :=
  match fetchNewComments (.ok env.fetchComments) (.ok env.fetchReviews) lastTS with
  | .error _ => ([], lastTS)
  | .ok none => ([], lastTS)
  | .ok (some _) =>
    let ts := maxCommentTS env.latestComments env.latestReviews
    if ts ≠ "" then ([ts], ts) else ([], lastTS)

/-- The full sequence of WritePR timestamps issued by a SinglePR run
over a script of polls. -/
def singlePRWrites (stored : Option PRState)
    (bc : List ReviewComment) (br : List Review)
    (script : List PollEnv) : List String :=
  let init := singlePRInit stored bc br
  (script.foldl
    (fun acc env =>
      let r := singlePRIteration acc.2 env
      (acc.1 ++ r.1, r.2))
    init).1

/-- The persisted last_comment_ts values for the PR in order: the
previously stored value, if any, followed by every WritePR of the run. -/
def persistedSeq (stored : Option PRState)
    (bc : List ReviewComment) (br : List Review)
    (script : List PollEnv) : List String :=
  (match stored with
    | some s => [s.lastCommentTS]
    | none => []) ++ singlePRWrites stored bc br script

/-! ## Phase 2 review loop body (internal/watch/worker.go, watchReviews) -/

/-- The baseline timestamp after one iteration of the watchReviews
loop body: transient failures and non-open PR states leave it alone;
after an agent run on a non-empty batch the re-fetched latest
timestamp replaces it unless the re-fetch came back empty.  The agent
invocation's error is logged and has no effect on the update. -/
def reviewIterationTS (lastTS : String)
    (prStateRes : Except Unit String)
    (fetchCRes : Except Unit (List ReviewComment))
    (fetchRRes : Except Unit (List Review))
    (claudeErr : Bool)
    (postCRes : Except Unit (List ReviewComment))
    (postRRes : Except Unit (List Review)) : String :=
  match prStateRes with
  | .error _ => lastTS
  | .ok s =>
    if s ≠ "open" then lastTS
    else
      match fetchNewComments fetchCRes fetchRRes lastTS with
      | .error _ => lastTS
      | .ok none => lastTS
      | .ok (some _) =>
        let _ := claudeErr
        match getLatestCommentTimestamp postCRes postRRes with
        | .error _ => lastTS
        | .ok ts => if ts ≠ "" then ts else lastTS

/-! ## Issue discovery (internal/github/issues.go, FetchIssuesWithLabels)

The GitHub issue listing endpoint is supplied as a function from one
label to the issues carrying it. -/

/-- The body of the issue loop in FetchIssuesWithLabels: skip items
that are pull requests or whose number is already in the seen set,
otherwise mark the number seen and append the issue. -/
def issueSeenStep (acc2 : (Nat → Bool) × List GIssue) (iss : GIssue) :
    (Nat → Bool) × List GIssue :=
  if iss.pullRequest.isSome || acc2.1 iss.number then acc2
  else (fun m => if m = iss.number then true else acc2.1 m, acc2.2 ++ [iss])

/-- The body of the label loop in FetchIssuesWithLabels: trim the
label, skip it when blank, otherwise run one API listing for it and
fold its issues through the dedup step. -/
def issueLabelStep (api : String → List GIssue)
    (acc : (Nat → Bool) × List GIssue) (label : String) :
    (Nat → Bool) × List GIssue :=
  let l := trimString label
  if l = "" then acc else (api l).foldl issueSeenStep acc

/-- FetchIssuesWithLabels: one API call per comma-separated label
(blank labels skipped after trimming), results deduplicated by issue
number via the seen set, items with a pull_request payload skipped. -/
def fetchIssuesWithLabels (api : String → List GIssue) (labels : String) :
    List GIssue :=
  ((splitOnChar ',' labels).foldl (issueLabelStep api) (fun _ => false, [])).2

/-- The label set actually queried: the comma-separated pieces,
trimmed, with empty pieces dropped. -/
def parsedLabels (labels : String) : List String :=
  ((splitOnChar ',' labels).map trimString).filter (fun l => l ≠ "")

/-! ## Order facts about the Go string comparison -/

theorem charsLt_nil_right (l : List Char) : charsLt l [] = false := by
  cases l <;> rfl

theorem charsLt_irrefl (l : List Char) : charsLt l l = false := by
  induction l with
  | nil => rfl
  | cons a as ih => simp [charsLt, ih]

theorem charsLt_asymm : ∀ {a b : List Char}, charsLt a b = true → charsLt b a = false
  | [], [] => by simp [charsLt]
  | [], _ :: _ => by simp [charsLt]
  | _ :: _, [] => by simp [charsLt]
  | a :: as, b :: bs => by
    simp only [charsLt]
    by_cases h1 : a < b
    · simp [h1, asymm h1, lt_asymm h1]
    · by_cases h2 : b < a
      · simp [h1, h2]
      · simp [h1, h2]
        exact charsLt_asymm

theorem charsLt_false_trans : ∀ {b a c : List Char},
    charsLt a b = false → charsLt b c = false → charsLt a c = false
  | [], a, c => by
    intro h1 h2
    cases c with
    | nil => exact charsLt_nil_right a
    | cons z zs => simp [charsLt] at h2
  | y :: ys, a, c => by
    intro h1 h2
    cases a with
    | nil => simp [charsLt] at h1
    | cons x xs =>
      cases c with
      | nil => exact charsLt_nil_right _
      | cons z zs =>
        simp only [charsLt] at h1 h2 ⊢
        by_cases hxy : x < y
        · simp [hxy] at h1
        · by_cases hyz : y < z
          · simp [hyz] at h2
          · have hzx : ¬ x < z := fun h => by
              have hyx : y ≤ x := le_of_not_lt hxy
              have hzy : z ≤ y := le_of_not_lt hyz
              exact absurd (lt_of_lt_of_le (lt_of_lt_of_le h hzy) hyx) (lt_irrefl x)
            simp only [hzx, if_false]
            by_cases hzx2 : z < x
            · simp [hzx2]
            · simp [hzx2]
              have hxz : x = z := le_antisymm (le_of_not_lt hzx2) (le_of_not_lt hzx)
              have hxy2 : ¬ y < x := by
                intro h
                have hzy : z ≤ y := le_of_not_lt hyz
                rw [hxz] at h
                exact absurd (lt_of_le_of_lt hzy h) (lt_irrefl z)
              have hyz2 : ¬ z < y := by
                intro h
                have h3 := lt_of_lt_of_le h (le_of_not_lt hxy)
                rw [hxz] at h3
                exact absurd h3 (lt_irrefl z)
              simp [hxy, hxy2] at h1
              simp [hyz, hyz2] at h2
              exact charsLt_false_trans h1 h2

theorem strLe_refl (s : String) : strLe s s = true := by
  simp [strLe, strLt, charsLt_irrefl]

theorem strLe_of_lt {a b : String} (h : strLt a b = true) : strLe a b = true := by
  simp [strLe, strLt] at h ⊢
  exact charsLt_asymm h

theorem strLe_trans {a b c : String} (h1 : strLe a b = true) (h2 : strLe b c = true) :
    strLe a c = true := by
  simp [strLe, strLt] at h1 h2 ⊢
  exact charsLt_false_trans h2 h1

theorem foldlMaxTS_le_self {α : Type} (key : α → String) (l : List α) (m : String) :
    strLe m (l.foldl (fun acc x => if strLt acc (key x) then key x else acc) m) = true := by
  induction l generalizing m with
  | nil => exact strLe_refl m
  | cons x xs ih =>
    simp only [List.foldl_cons]
    by_cases h : strLt m (key x) = true
    · simp only [h, if_true]
      exact strLe_trans (strLe_of_lt h) (ih (key x))
    · simp only [h, if_false]
      exact ih m

theorem foldlMaxTS_mem_le {α : Type} (key : α → String) (l : List α) (m : String) :
    ∀ x ∈ l, strLe (key x)
      (l.foldl (fun acc y => if strLt acc (key y) then key y else acc) m) = true := by
  induction l generalizing m with
  | nil => intro x hx; cases hx
  | cons y ys ih =>
    intro x hx
    rcases List.mem_cons.mp hx with rfl | hx
    · simp only [List.foldl_cons]
      by_cases h : strLt m (key x) = true
      · simp only [h, if_true]
        exact foldlMaxTS_le_self key ys (key x)
      · simp only [h, if_false]
        have hle : strLe (key x) m = true := by
          simp only [strLe]
          simp only [Bool.not_eq_true] at h
          rw [h]
          rfl
        exact strLe_trans hle (foldlMaxTS_le_self key ys m)
    · simp only [List.foldl_cons]
      exact ih _ x hx

theorem comment_le_maxCommentTS {c : ReviewComment} {comments : List ReviewComment}
    {reviews : List Review} (h : c ∈ comments) :
    strLe c.latestTimestamp (maxCommentTS comments reviews) = true := by
  unfold maxCommentTS
  exact strLe_trans
    (foldlMaxTS_mem_le ReviewComment.latestTimestamp comments "" c h)
    (foldlMaxTS_le_self Review.submittedAt reviews _)

theorem review_le_maxCommentTS {r : Review} {comments : List ReviewComment}
    {reviews : List Review} (h : r ∈ reviews) :
    strLe r.submittedAt (maxCommentTS comments reviews) = true := by
  unfold maxCommentTS
  exact foldlMaxTS_mem_le Review.submittedAt reviews _ r h

/-! ## Claim theorems: error swallowing, atomic writes, baseline advance,
status transitions -/

/-- C10: GetLatestCommentTimestamp and FetchNewComments never return a
non-nil error; both underlying fetch failures are replaced by empty
lists, so a complete API outage is indistinguishable from no review
activity, and establishing the Phase 2 baseline during an outage
yields the empty string and falls back to the epoch sentinel. -/
theorem review_fetch_errors_swallowed
    (cres : Except Unit (List ReviewComment)) (rres : Except Unit (List Review))
    (since : String) :
    (∃ s, getLatestCommentTimestamp cres rres = .ok s) ∧
    (∃ x, fetchNewComments cres rres since = .ok x) ∧
    getLatestCommentTimestamp (.error ()) (.error ())
      = getLatestCommentTimestamp (.ok []) (.ok []) ∧
    fetchNewComments (.error ()) (.error ()) since
      = fetchNewComments (.ok []) (.ok []) since ∧
    establishBaseline (getLatestCommentTimestamp (.error ()) (.error ()))
      = "1970-01-01T00:00:00Z" := by
  refine ⟨⟨_, rfl⟩, ?_, rfl, rfl, rfl⟩
  simp only [fetchNewComments]
  split
  · exact ⟨_, rfl⟩
  · exact ⟨_, rfl⟩

/-- C4: every intermediate state of atomicWrite shows the old or the
new document at the target path, never a partial one; every failure
removes the temp file and leaves the target unchanged; success
installs the new document; and WriteIssue and WritePR are exactly
atomicWrite on the marshalled record. -/
theorem atomicWrite_atomicity {α : Type} (fs : FSFile α) (data : α) (f : AtomicFail)
    (h : fs.tmp = none) :
    (∀ s ∈ (atomicWrite fs data f).1, s.target = fs.target ∨ s.target = some data) ∧
    ((atomicWrite fs data f).2.1 = false →
      (atomicWrite fs data f).2.2.target = fs.target ∧
      (atomicWrite fs data f).2.2.tmp = none) ∧
    ((atomicWrite fs data f).2.1 = true →
      (atomicWrite fs data f).2.2.target = some data ∧
      (atomicWrite fs data f).2.2.tmp = none) ∧
    (∀ (g : FSFile IssueState) (s : IssueState) (ff : AtomicFail),
      writeIssueFS g s ff = atomicWrite g s ff) ∧
    (∀ (g : FSFile PRState) (s : PRState) (ff : AtomicFail),
      writePRFS g s ff = atomicWrite g s ff) := by
  refine ⟨?_, ?_, ?_, fun _ _ _ => rfl, fun _ _ _ => rfl⟩ <;>
    cases f <;> simp [atomicWrite, h]

/-- Witness for C4: a failure at the rename step over an absent target. -/
theorem atomicWrite_atomicity_witness :
    (FSFile.tmp (α := IssueState) ⟨none, none⟩ = none) ∧
    (∀ s ∈ (atomicWrite (⟨none, none⟩ : FSFile IssueState) preexistingRec .atRename).1,
      s.target = (⟨none, none⟩ : FSFile IssueState).target ∨
        s.target = some preexistingRec) :=
  ⟨rfl, (atomicWrite_atomicity ⟨none, none⟩ preexistingRec .atRename rfl).1⟩

/-- C6: after an agent run over a non-empty batch of new review
activity, the baseline advances to the re-fetched latest timestamp no
matter whether the agent invocation errored, and an empty re-fetch
result leaves the previous baseline unchanged. -/
theorem review_baseline_advance (lastTS : String)
    (cRes : Except Unit (List ReviewComment)) (rRes : Except Unit (List Review))
    (pc : List ReviewComment) (prv : List Review) (d : NewComments)
    (h : fetchNewComments cRes rRes lastTS = .ok (some d)) :
    (∀ e : Bool, reviewIterationTS lastTS (.ok "open") cRes rRes e (.ok pc) (.ok prv)
      = if maxCommentTS pc prv = "" then lastTS else maxCommentTS pc prv) ∧
    (maxCommentTS pc prv = "" →
      ∀ e : Bool, reviewIterationTS lastTS (.ok "open") cRes rRes e (.ok pc) (.ok prv)
        = lastTS) := by
  constructor
  · intro e
    simp only [reviewIterationTS, h, getLatestCommentTimestamp]
    split
    · simp_all
    · simp_all
  · intro hmax e
    simp only [reviewIterationTS, h, getLatestCommentTimestamp]
    simp [hmax]

/-- A concrete review comment used by witnesses. -/
def demoComment : ReviewComment :=
  ⟨7, "file.go", some 10, none, "please fix", ⟨"reviewer"⟩,
    "2024-02-01T10:00:00Z", "2024-02-01T10:00:00Z", 3⟩

/-- Witness for C6: one new inline comment, agent invocation failed. -/
theorem review_baseline_advance_witness :
    reviewIterationTS "" (.ok "open") (.ok [demoComment]) (.ok []) true
        (.ok [demoComment]) (.ok [])
      = if maxCommentTS [demoComment] [] = "" then "" else maxCommentTS [demoComment] [] :=
  (review_baseline_advance "" (.ok [demoComment]) (.ok []) [demoComment] []
    ⟨[demoComment], []⟩ rfl).1 true

/-- Counterexample to C2 as stated: the successful worker path writes
done (in watchReviews) and then done again (in RunWorker), so a status
is written after done, which the claim's transition list forbids. -/
theorem status_trace_spec_counterexample :
    ¬ List.Chain' (fun a b => specAllows a b = true)
      (issueStatusTrace (.spawnedWorker .completed)) := by
  simp [issueStatusTrace, runWorkerWrites, watchReviewsWrites, List.chain'_cons, specAllows]

/-- C2 (amended): every per-issue write sequence follows preexisting
with no successor, in_progress to watching or failed, watching to done
or failed, plus the idempotent terminal rewrites done-after-done and
failed-after-failed; and every sequence starts at preexisting or
in_progress. -/
theorem status_trace_code_transitions (lc : IssueLifecycle) :
    List.Chain' (fun a b => codeAllows a b = true) (issueStatusTrace lc) ∧
    ((issueStatusTrace lc).head? = some .preexisting ∨
      (issueStatusTrace lc).head? = some .inProgress) := by
  cases lc with
  | markedPreexisting =>
    exact ⟨List.chain'_singleton _, Or.inl rfl⟩
  | spawnedWorker o =>
    cases o with
    | phase1Fail f =>
      refine ⟨?_, Or.inr rfl⟩
      simp [issueStatusTrace, runWorkerWrites, List.chain'_cons, codeAllows, specAllows]
    | cancelledWhileWatching =>
      refine ⟨?_, Or.inr rfl⟩
      simp [issueStatusTrace, runWorkerWrites, watchReviewsWrites, List.chain'_cons,
        codeAllows, specAllows]
    | completed =>
      refine ⟨?_, Or.inr rfl⟩
      simp [issueStatusTrace, runWorkerWrites, watchReviewsWrites, List.chain'_cons,
        codeAllows, specAllows]

/-! ## Claim theorem: legacy migration tolerance -/

theorem parseLegacyLine_eq (raw : String) :
    parseLegacyLine raw =
      if wellFormedLegacyLine raw then
        some (legacyNumberPart raw, legacyTimestampPart raw)
      else none := by
  unfold parseLegacyLine wellFormedLegacyLine legacyNumberPart legacyTimestampPart
  by_cases h : trimString raw = ""
  · simp [h]
  · rcases hsp : splitOnChar '_' (trimString raw) with _ | ⟨a, _ | ⟨b, rest⟩⟩
    · simp [h, hsp]
    · simp [h, hsp]
    · by_cases ha : a = ""
      · simp [h, hsp, ha]
      · by_cases hts : joinWith "_" (b :: rest) = ""
        · simp [h, hsp, ha, hts]
        · simp [h, hsp, ha, hts]

theorem migrateEvents_no_fail (content : String) :
    migrateEvents content (fun _ => false)
      = (migrateWrites content).map (fun p => MigrateEvent.wrotePR p.1 p.2) := by
  unfold migrateEvents migrateWrites
  induction splitOnChar '\n' content with
  | nil => rfl
  | cons l ls ih =>
    simp only [List.map_cons, List.flatten_cons, List.filterMap_cons]
    cases hp : parseLegacyLine l with
    | none =>
      rw [show migrateLineEvents (fun _ => false) l = [] from by
        simp [migrateLineEvents, hp]]
      simpa using ih
    | some p =>
      obtain ⟨num, ts⟩ := p
      rw [show migrateLineEvents (fun _ => false) l
          = [MigrateEvent.wrotePR num ts] from by simp [migrateLineEvents, hp]]
      simpa using ih

theorem migrateWarnings_empty_no_fail (content : String) :
    migrateWarningList content (fun _ => false) = [] := by
  unfold migrateWarningList
  rw [migrateEvents_no_fail]
  induction migrateWrites content with
  | nil => rfl
  | cons p ps ih =>
    simpa using ih

/-- Counterexample to C9 as stated: the line "malformed" of this
legacy file is unparseable, yet migrating the file emits no warning at
all (the loop skips such lines silently; its only warning is for a
failed write of a parseable line), so the unparseable line is not
"skipped with a warning emitted". -/
theorem legacy_migration_warning_counterexample :
    wellFormedLegacyLine "malformed" = false ∧
    "malformed" ∈ splitOnChar '\n' "12_2024-01-01T00:00:00Z\nmalformed" ∧
    migrateWarningList "12_2024-01-01T00:00:00Z\nmalformed" (fun _ => false) = [] ∧
    migrateEvents "12_2024-01-01T00:00:00Z\nmalformed" (fun _ => false)
      = [MigrateEvent.wrotePR "12" "2024-01-01T00:00:00Z"] := by
  decide

/-- C9 (amended): migration of the legacy flat file never fails
because of a malformed line: a line is migrated exactly when, after
trimming, it is non-empty, has an underscore, and has non-empty number
and timestamp parts; each such line yields a write whose timestamp is
the line's timestamp part; unparseable lines are skipped silently,
with no warning, and migration continues; the only in-loop warning is
for a failed write of a parseable line's PR document; and Init treats
even a migration I/O error as a warning and proceeds. -/
theorem legacy_migration_tolerant (content : String) (root : StateRoot) (rf : Bool)
    (writeFails : String → Bool) :
    (∃ ws, migrateOldState (.flatFile content) false = .ok ws) ∧
    (∀ raw, parseLegacyLine raw =
      if wellFormedLegacyLine raw then
        some (legacyNumberPart raw, legacyTimestampPart raw)
      else none) ∧
    (migrateWrites content = (splitOnChar '\n' content).filterMap
      (fun l => if wellFormedLegacyLine l then
        some (legacyNumberPart l, legacyTimestampPart l) else none)) ∧
    ((initMigration root rf).1 = true) ∧
    (∀ l ∈ splitOnChar '\n' content, wellFormedLegacyLine l = true →
      (legacyNumberPart l, legacyTimestampPart l) ∈ migrateWrites content) ∧
    (∀ raw, parseLegacyLine raw = none → migrateLineEvents writeFails raw = []) ∧
    (∀ raw num ts, parseLegacyLine raw = some (num, ts) →
      migrateLineEvents writeFails raw
        = if writeFails num then [MigrateEvent.writeWarning num]
          else [MigrateEvent.wrotePR num ts]) ∧
    (migrateEvents content (fun _ => false)
      = (migrateWrites content).map (fun p => MigrateEvent.wrotePR p.1 p.2)) ∧
    (migrateWarningList content (fun _ => false) = []) := by
  refine ⟨⟨_, rfl⟩, parseLegacyLine_eq, ?_, ?_, ?_, ?_, ?_,
    migrateEvents_no_fail content, migrateWarnings_empty_no_fail content⟩
  · unfold migrateWrites
    congr 1
    funext l
    exact parseLegacyLine_eq l
  · cases root <;> cases rf <;> simp [initMigration, migrateOldState]
  · intro l hl hwf
    unfold migrateWrites
    rw [List.mem_filterMap]
    refine ⟨l, hl, ?_⟩
    rw [parseLegacyLine_eq, hwf]
    simp
  · intro raw h
    simp [migrateLineEvents, h]
  · intro raw num ts h
    simp [migrateLineEvents, h]

/-- Witness for C9: a legacy file with one well-formed line among
three malformed ones migrates that line's PR and timestamp. -/
theorem legacy_migration_tolerant_witness :
    ("12", "2024-01-01T00:00:00Z")
      ∈ migrateWrites "12_2024-01-01T00:00:00Z\nmalformed\n_x\n3_" :=
  ((legacy_migration_tolerant "12_2024-01-01T00:00:00Z\nmalformed\n_x\n3_"
      .directory false (fun _ => false)).2.2.2.2.1
    "12_2024-01-01T00:00:00Z" (by decide) (by decide))

/-! ## Scheduler scan lemmas and claim theorems -/


theorem processIssue_split (st : ScanState) (evs : List ScanEvent) (i : GIssue) :
    processIssue (st, evs) i
      = ((processIssue (st, []) i).1, evs ++ (processIssue (st, []) i).2) := by
  unfold processIssue
  cases h : st.store i.number <;> simp only [h]
  · split
    · simp
    · split <;> simp
  · simp

theorem foldl_split (l : List GIssue) (st : ScanState) (evs : List ScanEvent) :
    l.foldl processIssue (st, evs)
      = ((l.foldl processIssue (st, [])).1, evs ++ (l.foldl processIssue (st, [])).2) := by
  induction l generalizing st evs with
  | nil => simp
  | cons i l ih =>
    simp only [List.foldl_cons]
    rw [processIssue_split st evs i,
        ih (processIssue (st, []) i).1 (evs ++ (processIssue (st, []) i).2),
        ih (processIssue (st, []) i).1 (processIssue (st, []) i).2]
    simp

theorem scan_cons (st : ScanState) (i : GIssue) (l : List GIssue) :
    scanAndSpawnWorkers st (i :: l)
      = ((scanAndSpawnWorkers (processIssue (st, []) i).1 l).1,
         (processIssue (st, []) i).2
           ++ (scanAndSpawnWorkers (processIssue (st, []) i).1 l).2) := by
  unfold scanAndSpawnWorkers
  simp only [List.foldl_cons]
  conv_lhs => rw [← Prod.mk.eta (p := processIssue (st, []) i)]
  exact foldl_split l _ _

theorem processIssue_cases (st : ScanState) (i : GIssue) :
    (∃ s, st.store i.number = some s ∧
      (processIssue (st, []) i).1 = st ∧ (processIssue (st, []) i).2 = []) ∨
    (st.store i.number = none ∧ st.initialized = false ∧
      (processIssue (st, []) i).1
        = { st with store := storeWrite st.store i.number preexistingRec } ∧
      (processIssue (st, []) i).2 = [.wrote i.number preexistingRec]) ∨
    (st.store i.number = none ∧ st.initialized = true ∧ st.used < st.maxConcurrent ∧
      (processIssue (st, []) i).1
        = { st with
            store := storeWrite st.store i.number (inProgressRec i.number),
            active := fun m => if m = i.number then true else st.active m,
            used := st.used + 1 } ∧
      (processIssue (st, []) i).2
        = [.wrote i.number (inProgressRec i.number), .spawned i.number]) ∨
    (st.store i.number = none ∧ st.initialized = true ∧
      ¬ st.used < st.maxConcurrent ∧
      (processIssue (st, []) i).1 = st ∧
      (processIssue (st, []) i).2 = [.deferred i.number]) := by
  cases h : st.store i.number with
  | some s =>
    refine Or.inl ⟨s, rfl, ?_, ?_⟩ <;> simp [processIssue, h]
  | none =>
    by_cases hi : st.initialized = false
    · refine Or.inr (Or.inl ⟨rfl, hi, ?_, ?_⟩) <;> simp [processIssue, h, hi]
    · have hi2 : st.initialized = true := by
        cases hh : st.initialized
        · exact absurd hh hi
        · rfl
      by_cases hu : st.used < st.maxConcurrent
      · refine Or.inr (Or.inr (Or.inl ⟨rfl, hi2, hu, ?_, ?_⟩)) <;>
          simp [processIssue, h, hi, hu]
      · refine Or.inr (Or.inr (Or.inr ⟨rfl, hi2, hu, ?_, ?_⟩)) <;>
          simp [processIssue, h, hi, hu]

theorem processIssue_store_mono (st : ScanState) (i : GIssue) (n : Nat)
    (s : IssueState) (h : st.store n = some s) :
    (processIssue (st, []) i).1.store n = some s := by
  rcases processIssue_cases st i with ⟨t, hs, hp, _⟩ | ⟨hs, _, hp, _⟩ |
    ⟨hs, _, _, hp, _⟩ | ⟨hs, _, _, hp, _⟩ <;> rw [hp]
  · exact h
  · have hne : n ≠ i.number := by
      intro e
      rw [e, hs] at h
      cases h
    simp [storeWrite, hne, h]
  · have hne : n ≠ i.number := by
      intro e
      rw [e, hs] at h
      cases h
    simp [storeWrite, hne, h]
  · exact h

theorem processIssue_used_mono (st : ScanState) (i : GIssue) :
    st.used ≤ (processIssue (st, []) i).1.used := by
  rcases processIssue_cases st i with ⟨t, hs, hp, _⟩ | ⟨hs, _, hp, _⟩ |
    ⟨hs, _, _, hp, _⟩ | ⟨hs, _, _, hp, _⟩ <;> rw [hp]
  exact Nat.le_succ _

theorem processIssue_max_eq (st : ScanState) (i : GIssue) :
    (processIssue (st, []) i).1.maxConcurrent = st.maxConcurrent := by
  rcases processIssue_cases st i with ⟨t, hs, hp, _⟩ | ⟨hs, _, hp, _⟩ |
    ⟨hs, _, _, hp, _⟩ | ⟨hs, _, _, hp, _⟩ <;> rw [hp]

theorem processIssue_init_eq (st : ScanState) (i : GIssue) :
    (processIssue (st, []) i).1.initialized = st.initialized := by
  rcases processIssue_cases st i with ⟨t, hs, hp, _⟩ | ⟨hs, _, hp, _⟩ |
    ⟨hs, _, _, hp, _⟩ | ⟨hs, _, _, hp, _⟩ <;> rw [hp]

theorem scan_store_mono (l : List GIssue) (st : ScanState) (n : Nat) (s : IssueState)
    (h : st.store n = some s) :
    (scanAndSpawnWorkers st l).1.store n = some s := by
  induction l generalizing st with
  | nil => exact h
  | cons i l ih =>
    rw [scan_cons]
    exact ih (processIssue (st, []) i).1 (processIssue_store_mono st i n s h)

theorem scan_used_mono (l : List GIssue) (st : ScanState) :
    st.used ≤ (scanAndSpawnWorkers st l).1.used := by
  induction l generalizing st with
  | nil => exact le_refl _
  | cons i l ih =>
    rw [scan_cons]
    exact le_trans (processIssue_used_mono st i) (ih (processIssue (st, []) i).1)

theorem scan_max_eq (l : List GIssue) (st : ScanState) :
    (scanAndSpawnWorkers st l).1.maxConcurrent = st.maxConcurrent := by
  induction l generalizing st with
  | nil => rfl
  | cons i l ih =>
    rw [scan_cons]
    rw [ih (processIssue (st, []) i).1, processIssue_max_eq]

theorem scan_init_eq (l : List GIssue) (st : ScanState) :
    (scanAndSpawnWorkers st l).1.initialized = st.initialized := by
  induction l generalizing st with
  | nil => rfl
  | cons i l ih =>
    rw [scan_cons]
    rw [ih (processIssue (st, []) i).1, processIssue_init_eq]

theorem scan_used_le_max (l : List GIssue) (st : ScanState)
    (h : st.used ≤ st.maxConcurrent) :
    (scanAndSpawnWorkers st l).1.used ≤ st.maxConcurrent := by
  induction l generalizing st with
  | nil => exact h
  | cons i l ih =>
    rw [scan_cons]
    rcases processIssue_cases st i with ⟨t, hs, hp, _⟩ | ⟨hs, _, hp, _⟩ |
      ⟨hs, _, hu, hp, _⟩ | ⟨hs, _, hu, hp, _⟩
    · rw [hp]
      exact ih st h
    · have h2 : (processIssue (st, []) i).1.used ≤ (processIssue (st, []) i).1.maxConcurrent := by
        rw [hp]
        exact h
      have := ih (processIssue (st, []) i).1 h2
      rw [processIssue_max_eq] at this
      exact this
    · have h2 : (processIssue (st, []) i).1.used ≤ (processIssue (st, []) i).1.maxConcurrent := by
        rw [hp]
        exact hu
      have := ih (processIssue (st, []) i).1 h2
      rw [processIssue_max_eq] at this
      exact this
    · rw [hp]
      exact ih st h



theorem scan_recorded_silent (l : List GIssue) (st : ScanState) (n : Nat)
    (s : IssueState) (h : st.store n = some s) :
    (∀ r, ScanEvent.wrote n r ∉ (scanAndSpawnWorkers st l).2) ∧
    ScanEvent.spawned n ∉ (scanAndSpawnWorkers st l).2 := by
  induction l generalizing st with
  | nil => simp [scanAndSpawnWorkers]
  | cons i l ih =>
    rw [scan_cons]
    have ihs := ih (processIssue (st, []) i).1 (processIssue_store_mono st i n s h)
    have hne : st.store i.number = none → n ≠ i.number := by
      intro hs0 e
      rw [e, hs0] at h
      cases h
    rcases processIssue_cases st i with ⟨t, hs, _, hp2⟩ | ⟨hs, _, _, hp2⟩ |
      ⟨hs, _, _, _, hp2⟩ | ⟨hs, _, _, _, hp2⟩ <;> rw [hp2]
    · simpa using ihs
    · refine ⟨?_, ?_⟩
      · intro r hr
        rcases List.mem_append.mp hr with h1 | h2
        · simp at h1
          exact hne hs h1.1
        · exact ihs.1 r h2
      · intro hr
        rcases List.mem_append.mp hr with h1 | h2
        · simp at h1
        · exact ihs.2 h2
    · refine ⟨?_, ?_⟩
      · intro r hr
        rcases List.mem_append.mp hr with h1 | h2
        · simp at h1
          exact hne hs h1.1
        · exact ihs.1 r h2
      · intro hr
        rcases List.mem_append.mp hr with h1 | h2
        · simp at h1
          exact hne hs h1
        · exact ihs.2 h2
    · refine ⟨?_, ?_⟩
      · intro r hr
        rcases List.mem_append.mp hr with h1 | h2
        · simp at h1
        · exact ihs.1 r h2
      · intro hr
        rcases List.mem_append.mp hr with h1 | h2
        · simp at h1
        · exact ihs.2 h2

theorem scan_frozen_when_full (l : List GIssue) (st : ScanState)
    (hinit : st.initialized = true) (hfull : st.maxConcurrent ≤ st.used) :
    (scanAndSpawnWorkers st l).1 = st ∧
    (∀ ev ∈ (scanAndSpawnWorkers st l).2, ∃ n, ev = ScanEvent.deferred n) ∧
    (∀ i ∈ l, st.store i.number = none →
      ScanEvent.deferred i.number ∈ (scanAndSpawnWorkers st l).2) := by
  induction l with
  | nil => simp [scanAndSpawnWorkers]
  | cons i l ih =>
    rw [scan_cons]
    rcases processIssue_cases st i with ⟨t, hs, hp1, hp2⟩ | ⟨hs, hi2, hp1, hp2⟩ |
      ⟨hs, hi2, hu, hp1, hp2⟩ | ⟨hs, hi2, hu, hp1, hp2⟩
    · rw [hp1, hp2]
      refine ⟨ih.1, ?_, ?_⟩
      · simpa using ih.2.1
      · intro j hj hnone
        rcases List.mem_cons.mp hj with rfl | hj2
        · rw [hs] at hnone
          cases hnone
        · simpa using ih.2.2 j hj2 hnone
    · rw [hi2] at hinit
      cases hinit
    · exact absurd hu (Nat.not_lt.mpr hfull)
    · rw [hp1, hp2]
      refine ⟨ih.1, ?_, ?_⟩
      · intro ev hev
        rcases List.mem_append.mp hev with h1 | h2
        · exact ⟨i.number, List.mem_singleton.mp h1⟩
        · exact ih.2.1 ev h2
      · intro j hj hnone
        rcases List.mem_cons.mp hj with rfl | hj2
        · exact List.mem_append.mpr (Or.inl (List.mem_singleton.mpr rfl))
        · exact List.mem_append.mpr (Or.inr (ih.2.2 j hj2 hnone))

theorem scan_coverage (l : List GIssue) (st : ScanState) :
    ∀ i ∈ l, (scanAndSpawnWorkers st l).1.store i.number ≠ none ∨
      ((scanAndSpawnWorkers st l).1.initialized = true ∧
        (scanAndSpawnWorkers st l).1.maxConcurrent
          ≤ (scanAndSpawnWorkers st l).1.used) := by
  induction l generalizing st with
  | nil => intro i hi; cases hi
  | cons j l ih =>
    intro i hi
    rw [scan_cons]
    rcases List.mem_cons.mp hi with rfl | hmem
    · rcases processIssue_cases st i with ⟨t, hs, hp1, _⟩ | ⟨hs, hi2, hp1, _⟩ |
        ⟨hs, hi2, hu, hp1, _⟩ | ⟨hs, hi2, hu, hp1, _⟩
      · left
        have hst : (processIssue (st, []) i).1.store i.number = some t := by
          rw [hp1]
          exact hs
        rw [scan_store_mono l _ i.number t hst]
        simp
      · left
        have hst : (processIssue (st, []) i).1.store i.number = some preexistingRec := by
          rw [hp1]
          simp [storeWrite]
        rw [scan_store_mono l _ i.number preexistingRec hst]
        simp
      · left
        have hst : (processIssue (st, []) i).1.store i.number
            = some (inProgressRec i.number) := by
          rw [hp1]
          simp [storeWrite]
        rw [scan_store_mono l _ i.number _ hst]
        simp
      · right
        constructor
        · rw [scan_init_eq, hp1]
          exact hi2
        · rw [scan_max_eq, hp1]
          exact le_trans (Nat.not_lt.mp hu) (scan_used_mono l st)
    · exact ih (processIssue (st, []) j).1 i hmem



theorem scan_silent_when_covered (l : List GIssue) (st : ScanState)
    (hcov : ∀ i ∈ l, st.store i.number ≠ none ∨
      (st.initialized = true ∧ st.maxConcurrent ≤ st.used)) :
    (∀ n r, ScanEvent.wrote n r ∉ (scanAndSpawnWorkers st l).2) ∧
    (∀ n, ScanEvent.spawned n ∉ (scanAndSpawnWorkers st l).2) := by
  induction l with
  | nil => simp [scanAndSpawnWorkers]
  | cons i l ih =>
    rw [scan_cons]
    have hci := hcov i (List.mem_cons_self i l)
    have hcov2 : ∀ j ∈ l, st.store j.number ≠ none ∨
        (st.initialized = true ∧ st.maxConcurrent ≤ st.used) :=
      fun j hj => hcov j (List.mem_cons_of_mem i hj)
    rcases processIssue_cases st i with ⟨t, hs, hp1, hp2⟩ | ⟨hs, hi2, hp1, hp2⟩ |
      ⟨hs, hi2, hu, hp1, hp2⟩ | ⟨hs, hi2, hu, hp1, hp2⟩
    · rw [hp1, hp2]
      simpa using ih hcov2
    · rcases hci with hne | ⟨hi3, _⟩
      · exact absurd hs hne
      · rw [hi2] at hi3
        cases hi3
    · rcases hci with hne | ⟨_, hfull⟩
      · exact absurd hs hne
      · exact absurd hu (Nat.not_lt.mpr hfull)
    · rw [hp1, hp2]
      have ihr := ih hcov2
      refine ⟨?_, ?_⟩
      · intro n r hr
        rcases List.mem_append.mp hr with h1 | h2
        · simp at h1
        · exact ihr.1 n r h2
      · intro n hr
        rcases List.mem_append.mp hr with h1 | h2
        · simp at h1
        · exact ihr.2 n h2

theorem scan_spawn_sublist (l : List GIssue) (st : ScanState) (n : Nat)
    (h : ScanEvent.spawned n ∈ (scanAndSpawnWorkers st l).2) :
    [ScanEvent.wrote n (inProgressRec n), ScanEvent.spawned n].Sublist
      (scanAndSpawnWorkers st l).2 := by
  induction l generalizing st with
  | nil => simp [scanAndSpawnWorkers] at h
  | cons i l ih =>
    rw [scan_cons] at h ⊢
    rcases List.mem_append.mp h with h1 | h2
    · rcases processIssue_cases st i with ⟨t, hs, _, hp2⟩ | ⟨hs, _, _, hp2⟩ |
        ⟨hs, _, _, _, hp2⟩ | ⟨hs, _, _, _, hp2⟩ <;> rw [hp2] at h1 ⊢
      · simp at h1
      · simp at h1
      · have hn : n = i.number := by simpa using h1
        subst hn
        exact List.sublist_append_left _ _
      · simp at h1
    · exact (ih (processIssue (st, []) i).1 h2).trans (List.sublist_append_right _ _)

theorem scan_spawn_unrecorded (l : List GIssue) (st : ScanState) (n : Nat)
    (h : ScanEvent.spawned n ∈ (scanAndSpawnWorkers st l).2) :
    st.store n = none := by
  cases hs : st.store n with
  | none => rfl
  | some s => exact absurd h (scan_recorded_silent l st n s hs).2

theorem scan_uninit_no_spawn (l : List GIssue) (st : ScanState)
    (hinit : st.initialized = false) :
    ∀ n, ScanEvent.spawned n ∉ (scanAndSpawnWorkers st l).2 := by
  induction l generalizing st with
  | nil => simp [scanAndSpawnWorkers]
  | cons i l ih =>
    intro n h
    rw [scan_cons] at h
    rcases processIssue_cases st i with ⟨t, hs, hp1, hp2⟩ | ⟨hs, hi2, hp1, hp2⟩ |
      ⟨hs, hi2, hu, hp1, hp2⟩ | ⟨hs, hi2, hu, hp1, hp2⟩
    · rw [hp1, hp2] at h
      simp only [List.nil_append] at h
      exact ih st hinit n h
    · rw [hp2] at h
      rcases List.mem_append.mp h with h1 | h2
      · simp at h1
      · have hinit2 : (processIssue (st, []) i).1.initialized = false := by
          rw [processIssue_init_eq]
          exact hinit
        exact ih _ hinit2 n h2
    · rw [hi2] at hinit
      cases hinit
    · rw [hi2] at hinit
      cases hinit

theorem scan_uninit_marks (l : List GIssue) (st : ScanState) (n : Nat)
    (hinit : st.initialized = false) (hnone : st.store n = none)
    (hmem : n ∈ l.map GIssue.number) :
    (scanAndSpawnWorkers st l).1.store n = some preexistingRec := by
  induction l generalizing st with
  | nil => cases hmem
  | cons i l ih =>
    rw [scan_cons]
    rcases processIssue_cases st i with ⟨t, hs, hp1, _⟩ | ⟨hs, hi2, hp1, _⟩ |
      ⟨hs, hi2, hu, hp1, _⟩ | ⟨hs, hi2, hu, hp1, _⟩
    · by_cases hn : n = i.number
      · rw [hn, hs] at hnone
        cases hnone
      · have hmem2 : n ∈ l.map GIssue.number := by
          rw [List.map_cons] at hmem
          rcases List.mem_cons.mp hmem with h1 | h1
          · exact absurd h1 hn
          · exact h1
        have hst : (processIssue (st, []) i).1.store n = none := by
          rw [hp1]
          exact hnone
        have hin : (processIssue (st, []) i).1.initialized = false := by
          rw [processIssue_init_eq]
          exact hinit
        exact ih _ hin hst hmem2
    · by_cases hn : n = i.number
      · have hst : (processIssue (st, []) i).1.store n = some preexistingRec := by
          rw [hp1, hn]
          simp [storeWrite]
        exact scan_store_mono l _ n preexistingRec hst
      · have hmem2 : n ∈ l.map GIssue.number := by
          rw [List.map_cons] at hmem
          rcases List.mem_cons.mp hmem with h1 | h1
          · exact absurd h1 hn
          · exact h1
        have hst : (processIssue (st, []) i).1.store n = none := by
          rw [hp1]
          simp [storeWrite, hn]
          exact hnone
        have hin : (processIssue (st, []) i).1.initialized = false := by
          rw [processIssue_init_eq]
          exact hinit
        exact ih _ hin hst hmem2
    · rw [hi2] at hinit
      cases hinit
    · rw [hi2] at hinit
      cases hinit

theorem processIssue_active_inv (st : ScanState) (i : GIssue)
    (h : ∀ m, st.active m = true → st.store m ≠ none) :
    ∀ m, (processIssue (st, []) i).1.active m = true →
      (processIssue (st, []) i).1.store m ≠ none := by
  rcases processIssue_cases st i with ⟨t, hs, hp1, _⟩ | ⟨hs, _, hp1, _⟩ |
    ⟨hs, _, _, hp1, _⟩ | ⟨hs, _, _, hp1, _⟩ <;> rw [hp1] <;> intro m hm
  · exact h m hm
  · by_cases hn : m = i.number
    · subst hn
      simp [storeWrite]
    · simp only [storeWrite, hn, if_false]
      exact h m hm
  · by_cases hn : m = i.number
    · subst hn
      simp [storeWrite]
    · have hact : st.active m = true := by
        simpa [hn] using hm
      simp only [storeWrite, hn, if_false]
      exact h m hact
  · exact h m hm

theorem scan_active_inv (l : List GIssue) (st : ScanState)
    (h : ∀ m, st.active m = true → st.store m ≠ none) :
    ∀ m, (scanAndSpawnWorkers st l).1.active m = true →
      (scanAndSpawnWorkers st l).1.store m ≠ none := by
  induction l generalizing st with
  | nil => exact h
  | cons i l ih =>
    rw [scan_cons]
    exact ih (processIssue (st, []) i).1 (processIssue_active_inv st i h)

theorem scan_spawn_not_active (l : List GIssue) (st : ScanState) (n : Nat)
    (hinv : ∀ m, st.active m = true → st.store m ≠ none)
    (h : ScanEvent.spawned n ∈ (scanAndSpawnWorkers st l).2) :
    st.active n = false := by
  have hnone := scan_spawn_unrecorded l st n h
  cases ha : st.active n
  · rfl
  · exact absurd hnone (hinv n ha)



/-- C1: under the invariant that every active worker has a durable
record, a scan never spawns a worker for an already-active issue and
preserves the invariant (so at most one active handle per issue number
ever exists); every spawn is preceded in program order by the
in_progress record write; and a second scan over the same issue set in
the same cycle performs no record write and no spawn at all. -/
theorem scan_admission_idempotent (st : ScanState) (issues : List GIssue)
    (hinv : ∀ m, st.active m = true → st.store m ≠ none) :
    (∀ n, ScanEvent.spawned n ∈ (scanAndSpawnWorkers st issues).2 →
      st.active n = false) ∧
    (∀ m, (scanAndSpawnWorkers st issues).1.active m = true →
      (scanAndSpawnWorkers st issues).1.store m ≠ none) ∧
    (∀ n, ScanEvent.spawned n ∈ (scanAndSpawnWorkers st issues).2 →
      [ScanEvent.wrote n (inProgressRec n), ScanEvent.spawned n].Sublist
        (scanAndSpawnWorkers st issues).2) ∧
    (∀ n r, ScanEvent.wrote n r ∉
      (scanAndSpawnWorkers (scanAndSpawnWorkers st issues).1 issues).2) ∧
    (∀ n, ScanEvent.spawned n ∉
      (scanAndSpawnWorkers (scanAndSpawnWorkers st issues).1 issues).2) := by
  have hsilent := scan_silent_when_covered issues (scanAndSpawnWorkers st issues).1
    (scan_coverage issues st)
  exact ⟨fun n h => scan_spawn_not_active issues st n hinv h,
    scan_active_inv issues st hinv,
    fun n h => scan_spawn_sublist issues st n h,
    hsilent.1, hsilent.2⟩

/-- A labelled open issue used by the concrete scheduler scenarios. -/
def demoIssue (n : Nat) : GIssue := ⟨n, "", "", "open", none⟩

/-- A fresh state store: nothing recorded, not initialized, empty
active set, no slot used, MAX_CONCURRENT two. -/
def freshScanState : ScanState := ⟨fun _ => none, false, fun _ => false, 0, 2⟩

/-- First scheduler cycle over pre-existing issues 1, 2, 3. -/
def demoCycle1 : ScanState × List ScanEvent :=
  runCycle freshScanState [demoIssue 1, demoIssue 2, demoIssue 3]

/-- Second scheduler cycle, with issue 4 newly appeared. -/
def demoCycle2 : ScanState × List ScanEvent :=
  runCycle demoCycle1.1 [demoIssue 1, demoIssue 2, demoIssue 3, demoIssue 4]

/-- Witness for C1: one unrecorded issue on an initialized store with
a free slot is written and then spawned, in that order. -/
theorem scan_admission_idempotent_witness :
    [ScanEvent.wrote 1 (inProgressRec 1), ScanEvent.spawned 1].Sublist
      (scanAndSpawnWorkers ⟨fun _ => none, true, fun _ => false, 0, 2⟩ [demoIssue 1]).2 :=
  (scan_admission_idempotent ⟨fun _ => none, true, fun _ => false, 0, 2⟩ [demoIssue 1]
    (fun _ h => nomatch h)).2.2.1 1 (by decide)

/-- C3: a scan started within the semaphore bound stays within it
(admission uses the non-blocking acquire, one slot per spawn); with a
full pool the scan changes no state and only defers, every unrecorded
issue being deferred with no record written; and worker termination
releases the slot and drops the handle regardless of outcome. -/
theorem scan_bounded_concurrency (st : ScanState) (issues : List GIssue)
    (h : st.used ≤ st.maxConcurrent) :
    (scanAndSpawnWorkers st issues).1.used
      ≤ (scanAndSpawnWorkers st issues).1.maxConcurrent ∧
    (st.initialized = true → st.maxConcurrent ≤ st.used →
      (scanAndSpawnWorkers st issues).1 = st ∧
      (∀ ev ∈ (scanAndSpawnWorkers st issues).2, ∃ n, ev = ScanEvent.deferred n) ∧
      (∀ i ∈ issues, st.store i.number = none →
        ScanEvent.deferred i.number ∈ (scanAndSpawnWorkers st issues).2)) ∧
    (∀ (st2 : ScanState) (n : Nat) (b : String) (e : Bool),
      (workerFinish st2 n b e).used = st2.used - 1 ∧
      (workerFinish st2 n b e).active n = false) := by
  refine ⟨?_, fun hi hf => scan_frozen_when_full issues st hi hf,
    fun st2 n b e => ⟨rfl, by simp [workerFinish]⟩⟩
  rw [scan_max_eq]
  exact scan_used_le_max issues st h

/-- Witness for C3: three fresh issues against two slots stay within
the bound. -/
theorem scan_bounded_concurrency_witness :
    (scanAndSpawnWorkers ⟨fun _ => none, true, fun _ => false, 0, 2⟩
        [demoIssue 1, demoIssue 2, demoIssue 3]).1.used
      ≤ (scanAndSpawnWorkers ⟨fun _ => none, true, fun _ => false, 0, 2⟩
        [demoIssue 1, demoIssue 2, demoIssue 3]).1.maxConcurrent :=
  (scan_bounded_concurrency ⟨fun _ => none, true, fun _ => false, 0, 2⟩
    [demoIssue 1, demoIssue 2, demoIssue 3] (by decide)).1

/-- C5: on the first scan of an uninitialized store every unrecorded
discovered issue is recorded preexisting and nothing is spawned; a
recorded issue (in particular a preexisting one) is never re-written
or spawned by any later scan; the cycle marks the store initialized;
and in the concrete scenario issues 1-3 stay preexisting while issue
4, appearing in the next cycle, is admitted and spawned. -/
theorem first_scan_snapshot (st : ScanState) (issues : List GIssue)
    (hinit : st.initialized = false) :
    (∀ n, st.store n = none → n ∈ issues.map GIssue.number →
      (scanAndSpawnWorkers st issues).1.store n = some preexistingRec) ∧
    (∀ n, ScanEvent.spawned n ∉ (scanAndSpawnWorkers st issues).2) ∧
    (∀ (st2 : ScanState) (l2 : List GIssue) (n : Nat) (s : IssueState),
      st2.store n = some s →
      (scanAndSpawnWorkers st2 l2).1.store n = some s ∧
      (∀ r, ScanEvent.wrote n r ∉ (scanAndSpawnWorkers st2 l2).2) ∧
      ScanEvent.spawned n ∉ (scanAndSpawnWorkers st2 l2).2) ∧
    ((runCycle st issues).1.initialized = true) ∧
    (demoCycle1.2 = [ScanEvent.wrote 1 preexistingRec, ScanEvent.wrote 2 preexistingRec,
        ScanEvent.wrote 3 preexistingRec] ∧
      demoCycle2.2 = [ScanEvent.wrote 4 (inProgressRec 4), ScanEvent.spawned 4] ∧
      demoCycle2.1.store 1 = some preexistingRec ∧
      demoCycle2.1.store 4 = some (inProgressRec 4)) := by
  refine ⟨fun n hn hm => scan_uninit_marks issues st n hinit hn hm,
    scan_uninit_no_spawn issues st hinit,
    fun st2 l2 n s h2 => ⟨scan_store_mono l2 st2 n s h2,
      (scan_recorded_silent l2 st2 n s h2).1, (scan_recorded_silent l2 st2 n s h2).2⟩,
    rfl, by decide⟩

/-- Witness for C5: issue 4 is admitted with an in_progress record in
the second cycle. -/
theorem first_scan_snapshot_witness :
    demoCycle2.1.store 4 = some (inProgressRec 4) :=
  ((first_scan_snapshot freshScanState [demoIssue 1, demoIssue 2, demoIssue 3]
      rfl).2.2.2.2).2.2.2


/-! ## Single-PR timestamp monotonicity -/


theorem strLe_empty (s : String) : strLe "" s = true := by
  simp only [strLe, strLt]
  rw [charsLt_nil_right]
  rfl

theorem fetchNew_some_witness {fc : List ReviewComment} {fr : List Review} {t : String}
    {d : NewComments} (h : fetchNewComments (.ok fc) (.ok fr) t = .ok (some d)) :
    (∃ c ∈ fc, strLt t c.latestTimestamp = true) ∨
    (∃ r ∈ fr, strLt t r.submittedAt = true) := by
  simp only [fetchNewComments] at h
  split at h
  · simp at h
  · next hcond =>
    rw [Bool.not_eq_true, Bool.and_eq_false_iff] at hcond
    rcases hcond with hc | hr
    · rw [List.isEmpty_eq_false_iff_exists_mem] at hc
      obtain ⟨c, hmem⟩ := hc
      rw [List.mem_filter] at hmem
      exact Or.inl ⟨c, hmem.1, hmem.2⟩
    · rw [List.isEmpty_eq_false_iff_exists_mem] at hr
      obtain ⟨r, hmem⟩ := hr
      rw [List.mem_filter, Bool.and_eq_true] at hmem
      exact Or.inr ⟨r, hmem.1, hmem.2.1⟩

theorem iteration_ts_ge (t : String) (env : PollEnv)
    (hc : ∀ c ∈ env.fetchComments, c ∈ env.latestComments)
    (hr : ∀ r ∈ env.fetchReviews, r ∈ env.latestReviews) :
    ((singlePRIteration t env).1 = [] ∧ (singlePRIteration t env).2 = t) ∨
    (∃ ts, (singlePRIteration t env).1 = [ts] ∧ (singlePRIteration t env).2 = ts ∧
      strLe t ts = true) := by
  unfold singlePRIteration
  cases hfetch : fetchNewComments (.ok env.fetchComments) (.ok env.fetchReviews) t with
  | error e => exact Or.inl ⟨rfl, rfl⟩
  | ok v =>
    cases v with
    | none => exact Or.inl ⟨rfl, rfl⟩
    | some d =>
      by_cases hts : maxCommentTS env.latestComments env.latestReviews = ""
      · simp [hts]
      · refine Or.inr ⟨maxCommentTS env.latestComments env.latestReviews, ?_, ?_, ?_⟩
        · simp [hts]
        · simp [hts]
        · rcases fetchNew_some_witness hfetch with ⟨c, hmem, hlt⟩ | ⟨r, hmem, hlt⟩
          · exact strLe_trans (strLe_of_lt hlt)
              (comment_le_maxCommentTS (hc c hmem))
          · exact strLe_trans (strLe_of_lt hlt)
              (review_le_maxCommentTS (hr r hmem))



theorem singlePR_fold_chain (script : List PollEnv)
    (hmono : ∀ env ∈ script, (∀ c ∈ env.fetchComments, c ∈ env.latestComments) ∧
      (∀ r ∈ env.fetchReviews, r ∈ env.latestReviews))
    (pre : List String) (acc : List String × String)
    (hchain : List.Chain' (fun a b => strLe a b = true) (pre ++ acc.1))
    (hlast : (pre ++ acc.1).getLast? = some acc.2) :
    List.Chain' (fun a b => strLe a b = true)
      (pre ++ (script.foldl (fun acc env =>
        let r := singlePRIteration acc.2 env
        (acc.1 ++ r.1, r.2)) acc).1) := by
  induction script generalizing acc with
  | nil => exact hchain
  | cons env script ih =>
    have hm := hmono env (List.mem_cons_self env script)
    have hrest : ∀ e ∈ script, (∀ c ∈ e.fetchComments, c ∈ e.latestComments) ∧
        (∀ r ∈ e.fetchReviews, r ∈ e.latestReviews) :=
      fun e he => hmono e (List.mem_cons_of_mem env he)
    simp only [List.foldl_cons]
    rcases iteration_ts_ge acc.2 env hm.1 hm.2 with ⟨h1, h2⟩ | ⟨ts, h1, h2, h3⟩
    · have heq : (acc.1 ++ (singlePRIteration acc.2 env).1,
          (singlePRIteration acc.2 env).2) = (acc.1, acc.2) := by
        rw [h1, h2]
        simp
      rw [heq]
      exact ih hrest acc hchain hlast
    · have heq : (acc.1 ++ (singlePRIteration acc.2 env).1,
          (singlePRIteration acc.2 env).2) = (acc.1 ++ [ts], ts) := by
        rw [h1, h2]
      rw [heq]
      refine ih hrest (acc.1 ++ [ts], ts) ?_ ?_
      · rw [← List.append_assoc]
        refine List.Chain'.append hchain (List.chain'_singleton ts) ?_
        intro x hx y hy
        rw [hlast] at hx
        simp only [Option.mem_def, Option.some_inj] at hx
        simp only [List.head?_cons, Option.mem_def, Option.some_inj] at hy
        rw [← hx, ← hy]
        exact h3
      · rw [← List.append_assoc]
        simp




/-- C7: under the environment assumption that within each poll the
comment and review sets seen by the post-agent latest-timestamp fetch
contain everything the new-comments fetch saw, the persisted
last_comment_ts sequence of a SinglePR run (previously stored value
followed by every WritePR) is monotonically non-decreasing in the Go
string order. -/
theorem singlePR_ts_monotone (stored : Option PRState)
    (bc : List ReviewComment) (br : List Review) (script : List PollEnv)
    (hmono : ∀ env ∈ script, (∀ c ∈ env.fetchComments, c ∈ env.latestComments) ∧
      (∀ r ∈ env.fetchReviews, r ∈ env.latestReviews)) :
    List.Chain' (fun a b => strLe a b = true) (persistedSeq stored bc br script) := by
  unfold persistedSeq singlePRWrites
  rcases stored with _ | s
  · by_cases hb : maxCommentTS bc br = ""
    · have hinit : singlePRInit none bc br
          = (["1970-01-01T00:00:00Z"], "1970-01-01T00:00:00Z") := by
        simp [singlePRInit, hb]
      rw [hinit]
      simpa using singlePR_fold_chain script hmono []
        (["1970-01-01T00:00:00Z"], "1970-01-01T00:00:00Z")
        (by simp) (by simp)
    · have hinit : singlePRInit none bc br
          = ([maxCommentTS bc br], maxCommentTS bc br) := by
        simp [singlePRInit, hb]
      rw [hinit]
      simpa using singlePR_fold_chain script hmono []
        ([maxCommentTS bc br], maxCommentTS bc br) (by simp) (by simp)
  · dsimp only
    by_cases h0 : s.lastCommentTS = ""
    · by_cases hb : maxCommentTS bc br = ""
      · have hinit : singlePRInit (some s) bc br
            = (["1970-01-01T00:00:00Z"], "1970-01-01T00:00:00Z") := by
          simp [singlePRInit, h0, hb]
        rw [hinit, h0]
        simpa using singlePR_fold_chain script hmono [""]
          (["1970-01-01T00:00:00Z"], "1970-01-01T00:00:00Z")
          (by simp [strLe_empty]) (by simp)
      · have hinit : singlePRInit (some s) bc br
            = ([maxCommentTS bc br], maxCommentTS bc br) := by
          simp [singlePRInit, h0, hb]
        rw [hinit, h0]
        simpa using singlePR_fold_chain script hmono [""]
          ([maxCommentTS bc br], maxCommentTS bc br)
          (by simp [strLe_empty]) (by simp)
    · have hinit : singlePRInit (some s) bc br = ([], s.lastCommentTS) := by
        simp [singlePRInit, h0]
      rw [hinit]
      simpa using singlePR_fold_chain script hmono [s.lastCommentTS]
        ([], s.lastCommentTS) (by simp) (by simp)

/-- Witness for C7: a fresh PR watch with one poll finding one new
comment and a failing agent run. -/
theorem singlePR_ts_monotone_witness :
    List.Chain' (fun a b => strLe a b = true)
      (persistedSeq none [] []
        [⟨[demoComment], [], true, [demoComment], []⟩]) :=
  singlePR_ts_monotone none [] []
    [⟨[demoComment], [], true, [demoComment], []⟩]
    (by
      intro env henv
      rw [List.mem_singleton] at henv
      subst henv
      exact ⟨fun x hx => hx, fun x hx => nomatch hx⟩)


/-! ## Discovery dedup and OR semantics -/


theorem issues_inner_fold (js : List GIssue) (acc : (Nat → Bool) × List GIssue)
    (hpair : acc.2.Pairwise (fun a b => a.number ≠ b.number))
    (hpr : ∀ i ∈ acc.2, i.pullRequest = none)
    (hseen : ∀ n, acc.1 n = true ↔ ∃ j ∈ acc.2, j.number = n) :
    ((js.foldl issueSeenStep acc).2.Pairwise (fun a b => a.number ≠ b.number)) ∧
    (∀ i ∈ (js.foldl issueSeenStep acc).2, i.pullRequest = none) ∧
    (∀ n, (js.foldl issueSeenStep acc).1 n = true ↔
      ∃ j ∈ (js.foldl issueSeenStep acc).2, j.number = n) ∧
    (∀ i ∈ (js.foldl issueSeenStep acc).2, i ∈ acc.2 ∨ i ∈ js) ∧
    (∀ i ∈ js, i.pullRequest = none →
      (js.foldl issueSeenStep acc).1 i.number = true) ∧
    (∀ n, acc.1 n = true → (js.foldl issueSeenStep acc).1 n = true) := by
  induction js generalizing acc with
  | nil =>
    exact ⟨hpair, hpr, hseen, fun i hi => Or.inl hi,
      fun i hi => absurd hi (List.not_mem_nil i), fun n h => h⟩
  | cons j js ih =>
    simp only [List.foldl_cons]
    by_cases hskip : (j.pullRequest.isSome || acc.1 j.number) = true
    · rw [show issueSeenStep acc j = acc from by simp [issueSeenStep, hskip]]
      obtain ⟨ipair, ipr, iseen, iorig, icov, imono⟩ := ih acc hpair hpr hseen
      refine ⟨ipair, ipr, iseen, ?_, ?_, imono⟩
      · intro i hi
        rcases iorig i hi with h1 | h1
        · exact Or.inl h1
        · exact Or.inr (List.mem_cons_of_mem j h1)
      · intro i hi hprn
        rcases List.mem_cons.mp hi with rfl | hi2
        · rw [Bool.or_eq_true] at hskip
          rcases hskip with h1 | h1
          · rw [hprn] at h1
            cases h1
          · exact imono i.number h1
        · exact icov i hi2 hprn
    · simp only [Bool.or_eq_true, not_or, Bool.not_eq_true] at hskip
      obtain ⟨hprj, hseenj⟩ := hskip
      have hprj2 : j.pullRequest = none := by
        rcases hj : j.pullRequest with _ | v
        · rfl
        · rw [hj] at hprj
          cases hprj
      have hstep : issueSeenStep acc j
          = (fun m => if m = j.number then true else acc.1 m, acc.2 ++ [j]) := by
        simp [issueSeenStep, hprj, hseenj]
      rw [hstep]
      have hnotin : ∀ a ∈ acc.2, a.number ≠ j.number := by
        intro a ha he
        have : acc.1 j.number = true := (hseen j.number).mpr ⟨a, ha, he⟩
        rw [this] at hseenj
        cases hseenj
      have hpair2 : (acc.2 ++ [j]).Pairwise (fun a b => a.number ≠ b.number) := by
        rw [List.pairwise_append]
        refine ⟨hpair, List.pairwise_singleton _ _, ?_⟩
        intro a ha b hb
        rw [List.mem_singleton.mp hb]
        exact hnotin a ha
      have hpr2 : ∀ i ∈ acc.2 ++ [j], i.pullRequest = none := by
        intro i hi
        rcases List.mem_append.mp hi with h1 | h1
        · exact hpr i h1
        · rw [List.mem_singleton.mp h1]
          exact hprj2
      have hseen2 : ∀ n, (fun m => if m = j.number then true else acc.1 m) n = true ↔
          ∃ i ∈ acc.2 ++ [j], i.number = n := by
        intro n
        by_cases hn : n = j.number
        · subst hn
          refine ⟨fun _ => ⟨j, List.mem_append_right _ (List.mem_singleton.mpr rfl), rfl⟩,
            fun _ => by simp⟩
        · simp only [if_neg hn]
          rw [hseen n]
          constructor
          · rintro ⟨i, hi, rfl⟩
            exact ⟨i, List.mem_append_left _ hi, rfl⟩
          · rintro ⟨i, hi, rfl⟩
            rcases List.mem_append.mp hi with h1 | h1
            · exact ⟨i, h1, rfl⟩
            · rw [List.mem_singleton.mp h1] at hn
              exact absurd rfl hn
      obtain ⟨ipair, ipr, iseen, iorig, icov, imono⟩ :=
        ih (fun m => if m = j.number then true else acc.1 m, acc.2 ++ [j])
          hpair2 hpr2 hseen2
      refine ⟨ipair, ipr, iseen, ?_, ?_, ?_⟩
      · intro i hi
        rcases iorig i hi with h1 | h1
        · rcases List.mem_append.mp h1 with h2 | h2
          · exact Or.inl h2
          · rw [List.mem_singleton.mp h2]
            exact Or.inr (List.mem_cons_self j js)
        · exact Or.inr (List.mem_cons_of_mem j h1)
      · intro i hi hprn
        rcases List.mem_cons.mp hi with rfl | hi2
        · refine imono i.number ?_
          simp
        · exact icov i hi2 hprn
      · intro n h
        refine imono n ?_
        by_cases hn : n = j.number
        · simp [hn]
        · simp [hn, h]



theorem issues_outer_fold (api : String → List GIssue) (pieces : List String)
    (done : List String) (acc : (Nat → Bool) × List GIssue)
    (hpair : acc.2.Pairwise (fun a b => a.number ≠ b.number))
    (hpr : ∀ i ∈ acc.2, i.pullRequest = none)
    (hseen : ∀ n, acc.1 n = true ↔ ∃ j ∈ acc.2, j.number = n)
    (horigin : ∀ i ∈ acc.2, ∃ l ∈ done, i ∈ api l)
    (hdone : ∀ l ∈ done, ∀ i ∈ api l, i.pullRequest = none → acc.1 i.number = true) :
    ((pieces.foldl (issueLabelStep api) acc).2.Pairwise
      (fun a b => a.number ≠ b.number)) ∧
    (∀ i ∈ (pieces.foldl (issueLabelStep api) acc).2, i.pullRequest = none) ∧
    (∀ n, (pieces.foldl (issueLabelStep api) acc).1 n = true ↔
      ∃ j ∈ (pieces.foldl (issueLabelStep api) acc).2, j.number = n) ∧
    (∀ i ∈ (pieces.foldl (issueLabelStep api) acc).2,
      ∃ l ∈ done ++ (pieces.map trimString).filter (fun l => l ≠ ""), i ∈ api l) ∧
    (∀ l ∈ done ++ (pieces.map trimString).filter (fun l => l ≠ ""), ∀ i ∈ api l,
      i.pullRequest = none →
        (pieces.foldl (issueLabelStep api) acc).1 i.number = true) := by
  induction pieces generalizing done acc with
  | nil =>
    refine ⟨hpair, hpr, hseen, ?_, ?_⟩
    · intro i hi
      simpa using horigin i hi
    · intro l hl
      simp only [List.map_nil, List.filter_nil, List.append_nil] at hl
      exact hdone l hl
  | cons p rest ih =>
    simp only [List.foldl_cons]
    by_cases hblank : trimString p = ""
    · have hstep : issueLabelStep api acc p = acc := by
        simp [issueLabelStep, hblank]
      rw [hstep]
      have hparsed : (List.map trimString (p :: rest)).filter (fun l => l ≠ "")
          = (List.map trimString rest).filter (fun l => l ≠ "") := by
        simp [hblank]
      rw [hparsed]
      exact ih done acc hpair hpr hseen horigin hdone
    · have hstep : issueLabelStep api acc p
          = (api (trimString p)).foldl issueSeenStep acc := by
        simp [issueLabelStep, hblank]
      rw [hstep]
      obtain ⟨ipair, ipr, iseen, iorig, icov, imono⟩ :=
        issues_inner_fold (api (trimString p)) acc hpair hpr hseen
      have horigin2 : ∀ i ∈ ((api (trimString p)).foldl issueSeenStep acc).2,
          ∃ l ∈ done ++ [trimString p], i ∈ api l := by
        intro i hi
        rcases iorig i hi with h1 | h1
        · obtain ⟨l, hl, hil⟩ := horigin i h1
          exact ⟨l, List.mem_append_left _ hl, hil⟩
        · exact ⟨trimString p,
            List.mem_append_right _ (List.mem_singleton.mpr rfl), h1⟩
      have hdone2 : ∀ l ∈ done ++ [trimString p], ∀ i ∈ api l,
          i.pullRequest = none →
            ((api (trimString p)).foldl issueSeenStep acc).1 i.number = true := by
        intro l hl i hi hprn
        rcases List.mem_append.mp hl with h1 | h1
        · exact imono i.number (hdone l h1 i hi hprn)
        · rw [List.mem_singleton.mp h1] at hi
          exact icov i hi hprn
      have hparsed : done ++ (List.map trimString (p :: rest)).filter (fun l => l ≠ "")
          = (done ++ [trimString p])
            ++ (List.map trimString rest).filter (fun l => l ≠ "") := by
        simp [hblank]
      rw [hparsed]
      exact ih (done ++ [trimString p]) _ ipair ipr iseen horigin2 hdone2

/-- C8: discovery returns no issue twice (numbers pairwise distinct),
excludes every item whose pull_request field is set, returns only
issues produced by the listing of some configured label (OR
semantics), and conversely every non-PR issue listed under any
configured label appears in the result by number. -/
theorem discovery_dedup_or_semantics (api : String → List GIssue) (labels : String) :
    ((fetchIssuesWithLabels api labels).Pairwise (fun a b => a.number ≠ b.number)) ∧
    (∀ i ∈ fetchIssuesWithLabels api labels, i.pullRequest = none) ∧
    (∀ i ∈ fetchIssuesWithLabels api labels, ∃ l ∈ parsedLabels labels, i ∈ api l) ∧
    (∀ l ∈ parsedLabels labels, ∀ i ∈ api l, i.pullRequest = none →
      ∃ j ∈ fetchIssuesWithLabels api labels, j.number = i.number) := by
  obtain ⟨hpair, hpr, hseen, horig, hcov⟩ :=
    issues_outer_fold api (splitOnChar ',' labels) [] (fun _ => false, [])
      List.Pairwise.nil
      (fun i hi => absurd hi (List.not_mem_nil i))
      (fun n => by simp)
      (fun i hi => absurd hi (List.not_mem_nil i))
      (fun l hl => absurd hl (List.not_mem_nil l))
  refine ⟨hpair, hpr, ?_, ?_⟩
  · intro i hi
    have := horig i hi
    simpa [parsedLabels] using this
  · intro l hl i hi hprn
    have hl2 : l ∈ ([] : List String)
        ++ ((splitOnChar ',' labels).map trimString).filter (fun l => l ≠ "") := by
      simpa [parsedLabels] using hl
    have := hcov l hl2 i hi hprn
    exact (hseen i.number).mp this


/-- Witness for C8: two labels, a PR-flavoured item filtered out, an
issue found under the second label only. -/
theorem discovery_dedup_or_semantics_witness :
    ∃ j ∈ fetchIssuesWithLabels
        (fun l => if l = "auto" then [demoIssue 1, ⟨2, "", "", "open", some "u"⟩]
          else [demoIssue 3])
        "auto, claude", j.number = 3 :=
  (discovery_dedup_or_semantics
      (fun l => if l = "auto" then [demoIssue 1, ⟨2, "", "", "open", some "u"⟩]
        else [demoIssue 3])
      "auto, claude").2.2.2 "claude" (by decide) (demoIssue 3) (by decide) rfl

end AutoPR
